import Mathlib

/-!
Verification of the countdown-timer plugin (`src/main.ts`) against its
natural-language specification.

The development shallowly embeds the plugin's pure logic:

* the text codec (`parseCountdownSource` / `serializeCountdownLines`),
* the colour utilities (`normaliseColor` / `colorsEqual`),
* the target-date parser (`parseTargetDate`, whose `Date.parse` call is
  modelled by the ECMAScript Date Time String Format grammar — the only
  format the JavaScript specification guarantees),
* the render widget's tick arithmetic and timer state machine,
* the settings-panel duration handler,
* the edit modal's submit validation,
* locale resolution (`getTranslations`) and `getDefaultLabel`.

JavaScript strings are modelled as Lean `String` / `List Char`; `Date`
values are modelled by their broken-down components plus the parsed UTC
offset (a faithful representation of an instant for the formats the
plugin reads and writes).  String whitespace is modelled by the ASCII
whitespace characters (space, tab, CR, LF, VT, FF).
-/

/-- Whitespace test used by the model of JavaScript `String.prototype.trim`
and of the regex class `\s` (ASCII subset). -/
def jsWs (c : Char) : Bool :=
  c = ' ' || c = '\t' || c = '\n' || c = '\r' || c = '\x0b' || c = '\x0c'

/-- Characters matched by the regex class `[0-9]`. -/
def isDigitChar (c : Char) : Bool :=
  c ∈ ['0', '1', '2', '3', '4', '5', '6', '7', '8', '9']

/-- Characters matched by the regex class `[0-9a-fA-F]`. -/
def isHexDigit (c : Char) : Bool :=
  c ∈ ['0', '1', '2', '3', '4', '5', '6', '7', '8', '9',
       'A', 'B', 'C', 'D', 'E', 'F', 'a', 'b', 'c', 'd', 'e', 'f']

/-- Decimal digit character, used by the model of number formatting. -/
def digitChar : Nat → Char
  | 0 => '0' | 1 => '1' | 2 => '2' | 3 => '3' | 4 => '4'
  | 5 => '5' | 6 => '6' | 7 => '7' | 8 => '8' | _ => '9'

/-- Numeric value of a decimal digit character, used by the model of
`Date.parse` reading fixed-width numeric fields. -/
def digitVal : Char → Nat
  | '0' => 0 | '1' => 1 | '2' => 2 | '3' => 3 | '4' => 4
  | '5' => 5 | '6' => 6 | '7' => 7 | '8' => 8 | '9' => 9
  | _ => 0

/-- `String.prototype.toUpperCase`, restricted to the characters the plugin
ever upper-cases (the hex digits matched by `normaliseColor`'s regex). -/
def toUpperCaseHex (c : Char) : Char :=
  if c = 'a' then 'A' else if c = 'b' then 'B' else if c = 'c' then 'C'
  else if c = 'd' then 'D' else if c = 'e' then 'E' else if c = 'f' then 'F'
  else c

/-- Strip leading and trailing whitespace from a character list. -/
def trimList (l : List Char) : List Char :=
  ((l.dropWhile jsWs).reverse.dropWhile jsWs).reverse

/-- Model of JavaScript `String.prototype.trim`. -/
def jsTrim (s : String) : String :=
  ⟨trimList s.data⟩

/-- Split a character list at each `'\n'` (the newline itself is dropped). -/
def splitOnNl : List Char → List (List Char)
  | [] => [[]]
  | c :: rest =>
    if c = '\n' then [] :: splitOnNl rest
    else
      match splitOnNl rest with
      | t :: ts => (c :: t) :: ts
      | [] => [[c]]

/-- Drop a single trailing `'\r'`, if present. -/
def dropCr (l : List Char) : List Char :=
  match l.reverse with
  | c :: r => if c = '\r' then r.reverse else l
  | [] => l

/-- Model of `source.split(/\r?\n/)`: split at `'\n'`, then remove the
carriage return that immediately preceded each newline. -/
def splitLinesJs (s : String) : List String :=
  (splitOnNl s.data).map fun l => ⟨dropCr l⟩

/-- Join a list of character lists with `'\n'` separators (inverse direction
of `splitOnNl` for newline-free pieces). -/
def joinNl : List (List Char) → List Char
  | [] => []
  | [l] => l
  | l :: ls => l ++ '\n' :: joinNl ls

/-- Join lines with `"\n"` separators. -/
def joinLines (ls : List String) : String :=
  ⟨joinNl (ls.map String.data)⟩

/-! ### Character facts -/

theorem isDigitChar_not_ws {c : Char} (h : isDigitChar c = true) : jsWs c = false := by
  simp only [isDigitChar, List.mem_cons, List.not_mem_nil, or_false, decide_eq_true_eq] at h
  rcases h with rfl | rfl | rfl | rfl | rfl | rfl | rfl | rfl | rfl | rfl <;> decide

theorem isDigitChar_ne_nl {c : Char} (h : isDigitChar c = true) : c ≠ '\n' := by
  intro hc
  subst hc
  simp [isDigitChar] at h

theorem digitChar_lt10 {d : Nat} (h : d < 10) :
    isDigitChar (digitChar d) = true ∧ digitVal (digitChar d) = d := by
  interval_cases d <;> exact ⟨by decide, by decide⟩

theorem isHexDigit_cases {c : Char} (h : isHexDigit c = true) :
    c ∈ ['0', '1', '2', '3', '4', '5', '6', '7', '8', '9',
         'A', 'B', 'C', 'D', 'E', 'F', 'a', 'b', 'c', 'd', 'e', 'f'] := by
  simpa [isHexDigit] using h

theorem toUpperCaseHex_hex {c : Char} (h : isHexDigit c = true) :
    jsWs (toUpperCaseHex c) = false ∧ toUpperCaseHex c ≠ '\n' ∧
      isHexDigit (toUpperCaseHex c) = true := by
  have := isHexDigit_cases h
  simp only [List.mem_cons, List.not_mem_nil, or_false] at this
  rcases this with rfl | rfl | rfl | rfl | rfl | rfl | rfl | rfl | rfl | rfl | rfl |
    rfl | rfl | rfl | rfl | rfl | rfl | rfl | rfl | rfl | rfl | rfl <;>
    exact ⟨by decide, by decide, by decide⟩

/-! ### Trim lemmas -/

theorem dropWhile_head_false {p : Char → Bool} :
    ∀ {l : List Char} {c : Char}, (l.dropWhile p).head? = some c → p c = false := by
  intro l
  induction l with
  | nil => intro c h; simp [List.dropWhile] at h
  | cons a t ih =>
    intro c h
    by_cases hp : p a
    · rw [List.dropWhile_cons, if_pos hp] at h
      exact ih h
    · rw [List.dropWhile_cons, if_neg hp] at h
      simp only [List.head?_cons, Option.some.injEq] at h
      subst h
      simpa using hp

theorem dropWhile_eq_self_of_head {p : Char → Bool} {l : List Char}
    (h : ∀ c, l.head? = some c → p c = false) : l.dropWhile p = l := by
  cases l with
  | nil => rfl
  | cons a t =>
    rw [List.dropWhile_cons, if_neg]
    simp [h a rfl]

theorem getLast?_dropWhile {p : Char → Bool} :
    ∀ {l : List Char}, l.dropWhile p ≠ [] → (l.dropWhile p).getLast? = l.getLast? := by
  intro l
  induction l with
  | nil => intro h; simp [List.dropWhile] at h
  | cons a t ih =>
    intro h
    by_cases hp : p a
    · rw [List.dropWhile_cons, if_pos hp] at h ⊢
      rw [ih h]
      have ht : t ≠ [] := by
        intro he
        subst he
        simp [List.dropWhile] at h
      cases t with
      | nil => exact absurd rfl ht
      | cons b u => rw [List.getLast?_cons_cons]
    · rw [List.dropWhile_cons, if_neg hp]

theorem trimList_head_false {l : List Char} {c : Char}
    (h : (trimList l).head? = some c) : jsWs c = false := by
  unfold trimList at h
  rw [List.head?_reverse] at h
  set B := (l.dropWhile jsWs).reverse.dropWhile jsWs with hB
  have hne : B ≠ [] := by
    intro he
    rw [he] at h
    simp at h
  rw [getLast?_dropWhile hne, List.getLast?_reverse] at h
  exact dropWhile_head_false h

theorem trimList_getLast_false {l : List Char} {c : Char}
    (h : (trimList l).getLast? = some c) : jsWs c = false := by
  unfold trimList at h
  rw [List.getLast?_reverse] at h
  exact dropWhile_head_false h

theorem trimList_eq_self_of_ends {l : List Char}
    (h1 : ∀ c, l.head? = some c → jsWs c = false)
    (h2 : ∀ c, l.getLast? = some c → jsWs c = false) : trimList l = l := by
  unfold trimList
  rw [dropWhile_eq_self_of_head h1]
  rw [dropWhile_eq_self_of_head (by
    intro c hc
    rw [List.head?_reverse] at hc
    exact h2 c hc)]
  exact List.reverse_reverse l

theorem trimList_idem (l : List Char) : trimList (trimList l) = trimList l :=
  trimList_eq_self_of_ends (fun _ h => trimList_head_false h)
    (fun _ h => trimList_getLast_false h)

theorem trimList_eq_self_of_no_ws {l : List Char}
    (h : ∀ c ∈ l, jsWs c = false) : trimList l = l := by
  refine trimList_eq_self_of_ends (fun c hc => h c ?_) (fun c hc => h c ?_)
  · cases l with
    | nil => simp at hc
    | cons a t =>
      simp only [List.head?_cons, Option.some.injEq] at hc
      subst hc
      exact List.mem_cons_self a t
  · cases l with
    | nil => simp at hc
    | cons a t =>
      have : c = (a :: t).getLast (by simp) := by
        have := List.getLast?_eq_getLast (a :: t) (by simp)
        rw [this] at hc
        exact (Option.some.injEq _ _).mp hc.symm
      rw [this]
      exact List.getLast_mem _

theorem trimList_sub {l : List Char} : ∀ c ∈ trimList l, c ∈ l := by
  intro c hc
  unfold trimList at hc
  rw [List.mem_reverse] at hc
  have h1 := List.dropWhile_sublist (l := (l.dropWhile jsWs).reverse) (p := jsWs)
  have hc2 := h1.subset hc
  rw [List.mem_reverse] at hc2
  exact (List.dropWhile_sublist (l := l) (p := jsWs)).subset hc2

theorem trimList_eq_nil_iff {l : List Char} :
    trimList l = [] ↔ ∀ c ∈ l, jsWs c = true := by
  constructor
  · intro h c hc
    by_contra hw
    have hw' : jsWs c = false := by
      cases hz : jsWs c
      · rfl
      · exact absurd hz hw
    unfold trimList at h
    rw [List.reverse_eq_nil_iff, List.dropWhile_eq_nil_iff] at h
    rcases hd : l.dropWhile jsWs with _ | ⟨a, t⟩
    · rw [List.dropWhile_eq_nil_iff] at hd
      exact absurd (hd c hc) (by simp [hw'])
    · have ha : jsWs a = false := dropWhile_head_false (l := l) (by rw [hd]; rfl)
      have hmem : a ∈ (l.dropWhile jsWs).reverse := by
        rw [List.mem_reverse, hd]
        exact List.mem_cons_self a t
      have := h a hmem
      rw [ha] at this
      exact absurd this (by simp)
  · intro h
    unfold trimList
    rw [List.reverse_eq_nil_iff, List.dropWhile_eq_nil_iff]
    intro x hx
    rw [List.mem_reverse] at hx
    exact h x ((List.dropWhile_sublist (l := l) (p := jsWs)).subset hx)

/-! ### Split / join lemmas -/

theorem splitOnNl_ne_nil : ∀ (l : List Char), splitOnNl l ≠ [] := by
  intro l
  induction l with
  | nil => simp [splitOnNl]
  | cons c rest ih =>
    unfold splitOnNl
    by_cases hc : c = '\n'
    · simp [hc]
    · rw [if_neg hc]
      rcases hs : splitOnNl rest with _ | ⟨t, ts⟩
      · simp
      · simp

theorem splitOnNl_cons_of_ne {a : Char} {t u : List Char} {us : List (List Char)}
    (ha : a ≠ '\n') (hs : splitOnNl t = u :: us) :
    splitOnNl (a :: t) = (a :: u) :: us := by
  unfold splitOnNl
  rw [if_neg ha, hs]

theorem splitOnNl_no_nl : ∀ {l : List Char}, '\n' ∉ l → splitOnNl l = [l] := by
  intro l
  induction l with
  | nil => intro _; rfl
  | cons c t ih =>
    intro h
    have hc : c ≠ '\n' := fun hc => h (hc ▸ List.mem_cons_self c t)
    have ht : '\n' ∉ t := fun hm => h (List.mem_cons_of_mem c hm)
    rw [splitOnNl_cons_of_ne hc (ih ht)]

theorem splitOnNl_append {a : List Char} (b : List Char) (h : '\n' ∉ a) :
    splitOnNl (a ++ '\n' :: b) = a :: splitOnNl b := by
  induction a with
  | nil =>
    show splitOnNl ('\n' :: b) = [] :: splitOnNl b
    conv_lhs => unfold splitOnNl
    rw [if_pos rfl]
  | cons c t ih =>
    have hc : c ≠ '\n' := fun hc => h (hc ▸ List.mem_cons_self c t)
    have ht : '\n' ∉ t := fun hm => h (List.mem_cons_of_mem c hm)
    show splitOnNl (c :: (t ++ '\n' :: b)) = (c :: t) :: splitOnNl b
    rw [splitOnNl_cons_of_ne hc (ih ht)]

theorem mem_splitOnNl_sub : ∀ {l seg : List Char}, seg ∈ splitOnNl l → ∀ c ∈ seg, c ∈ l := by
  intro l
  induction l with
  | nil =>
    intro seg hseg c hc
    simp only [splitOnNl, List.mem_singleton] at hseg
    subst hseg
    simp at hc
  | cons a t ih =>
    intro seg hseg c hc
    by_cases ha : a = '\n'
    · unfold splitOnNl at hseg
      rw [if_pos ha] at hseg
      rcases List.mem_cons.mp hseg with h1 | h1
      · subst h1
        simp at hc
      · exact List.mem_cons_of_mem _ (ih h1 c hc)
    · rcases hs : splitOnNl t with _ | ⟨u, us⟩
      · exact absurd hs (splitOnNl_ne_nil t)
      · rw [splitOnNl_cons_of_ne ha hs] at hseg
        rcases List.mem_cons.mp hseg with h1 | h1
        · subst h1
          rcases List.mem_cons.mp hc with h2 | h2
          · exact h2 ▸ List.mem_cons_self _ _
          · exact List.mem_cons_of_mem _
              (ih (by rw [hs]; exact List.mem_cons_self u us) c h2)
        · exact List.mem_cons_of_mem _
            (ih (by rw [hs]; exact List.mem_cons_of_mem u h1) c hc)

theorem mem_splitOnNl_cover : ∀ {l : List Char} {c : Char}, c ∈ l →
    c = '\n' ∨ ∃ seg ∈ splitOnNl l, c ∈ seg := by
  intro l
  induction l with
  | nil =>
    intro c hc
    simp at hc
  | cons a t ih =>
    intro c hc
    by_cases ha : a = '\n'
    · rcases List.mem_cons.mp hc with h1 | h1
      · exact Or.inl (h1.trans ha)
      · rcases ih h1 with h2 | ⟨seg, hseg, hcs⟩
        · exact Or.inl h2
        · refine Or.inr ⟨seg, ?_, hcs⟩
          unfold splitOnNl
          rw [if_pos ha]
          exact List.mem_cons_of_mem _ hseg
    · rcases hs : splitOnNl t with _ | ⟨u, us⟩
      · exact absurd hs (splitOnNl_ne_nil t)
      · rcases List.mem_cons.mp hc with h1 | h1
        · refine Or.inr ⟨a :: u, ?_, ?_⟩
          · rw [splitOnNl_cons_of_ne ha hs]
            exact List.mem_cons_self _ _
          · exact h1 ▸ List.mem_cons_self _ _
        · rcases ih h1 with h2 | ⟨seg, hseg, hcs⟩
          · exact Or.inl h2
          · rw [hs] at hseg
            rcases List.mem_cons.mp hseg with h3 | h3
            · refine Or.inr ⟨a :: u, ?_, ?_⟩
              · rw [splitOnNl_cons_of_ne ha hs]
                exact List.mem_cons_self _ _
              · exact List.mem_cons_of_mem a (h3 ▸ hcs)
            · refine Or.inr ⟨seg, ?_, hcs⟩
              rw [splitOnNl_cons_of_ne ha hs]
              exact List.mem_cons_of_mem _ h3

theorem dropCr_no_cr {l : List Char} (h : l.getLast? ≠ some '\r') : dropCr l = l := by
  unfold dropCr
  split
  · rename_i c r heq
    rw [if_neg]
    intro hc
    subst hc
    apply h
    rw [← List.head?_reverse, heq]
    rfl
  · rfl

theorem dropCr_sub {l : List Char} : ∀ c ∈ dropCr l, c ∈ l := by
  intro c hc
  unfold dropCr at hc
  split at hc
  · rename_i a r heq
    split at hc
    · rw [List.mem_reverse] at hc
      have : c ∈ a :: r := List.mem_cons_of_mem a hc
      rw [← heq, List.mem_reverse] at this
      exact this
    · exact hc
  · exact hc

theorem dropCr_cover {l : List Char} : ∀ c ∈ l, c ∈ dropCr l ∨ c = '\r' := by
  intro c hc
  unfold dropCr
  split
  · rename_i a r heq
    by_cases ha : a = '\r'
    · rw [if_pos ha]
      have hc' : c ∈ a :: r := by
        rw [← heq, List.mem_reverse]
        exact hc
      rcases List.mem_cons.mp hc' with h1 | h1
      · exact Or.inr (h1.trans ha)
      · exact Or.inl (by rwa [List.mem_reverse])
    · rw [if_neg ha]
      exact Or.inl hc
  · exact Or.inl hc

theorem splitOnNl_joinNl : ∀ {L : List (List Char)}, L ≠ [] →
    (∀ l ∈ L, '\n' ∉ l) → splitOnNl (joinNl L) = L := by
  intro L
  induction L with
  | nil => intro h; exact absurd rfl h
  | cons a t ih =>
    intro _ hnl
    cases t with
    | nil => exact splitOnNl_no_nl (hnl a (List.mem_cons_self _ _))
    | cons b u =>
      show splitOnNl (a ++ '\n' :: joinNl (b :: u)) = a :: b :: u
      rw [splitOnNl_append _ (hnl a (List.mem_cons_self _ _))]
      rw [ih (by simp) (fun l hl => hnl l (List.mem_cons_of_mem a hl))]

/-! ### Decimal digits: printing and fixed-width parsing -/

/-- Print `n` as exactly `w` decimal digits (most significant first), as in
the fields of `Date.prototype.toISOString`. Meaningful for `n < 10 ^ w`. -/
def padDigits : Nat → Nat → List Char
  | 0, _ => []
  | w + 1, n => digitChar (n / 10 ^ w) :: padDigits w (n % 10 ^ w)

/-- Decimal digits of `n`, with explicit fuel so that the recursion is
structural (and therefore kernel-reducible); fuel `n` always suffices
because the argument shrinks at every step. -/
def natReprAux : Nat → Nat → List Char
  | 0, n => [digitChar (n % 10)]
  | fuel + 1, n =>
    if n < 10 then [digitChar n]
    else natReprAux fuel (n / 10) ++ [digitChar (n % 10)]

/-- Decimal representation of a natural number (model of JavaScript
`Number.prototype.toString` on a non-negative integer). -/
def natRepr (n : Nat) : List Char :=
  natReprAux n n

/-- Model of the source's `pad`: `value.toString().padStart(2, "0")`. -/
def pad (n : Nat) : String :=
  if n < 10 then ⟨'0' :: natRepr n⟩ else ⟨natRepr n⟩

/-- Read exactly `w` decimal digits, returning their value and the rest of
the input; fails when a non-digit or the end of input is hit. -/
def takeDigitsAux : Nat → Nat → List Char → Option (Nat × List Char)
  | 0, acc, cs => some (acc, cs)
  | _ + 1, _, [] => none
  | w + 1, acc, c :: cs =>
    if isDigitChar c then takeDigitsAux w (acc * 10 + digitVal c) cs else none

/-- Read exactly `w` decimal digits starting from accumulator `0`. -/
def takeDigits (w : Nat) (cs : List Char) : Option (Nat × List Char) :=
  takeDigitsAux w 0 cs

theorem takeDigitsAux_pad : ∀ (w acc n : Nat) (rest : List Char), n < 10 ^ w →
    takeDigitsAux w acc (padDigits w n ++ rest) = some (acc * 10 ^ w + n, rest) := by
  intro w
  induction w with
  | zero =>
    intro acc n rest hn
    have hn0 : n = 0 := by omega
    subst hn0
    simp [padDigits, takeDigitsAux]
  | succ w ih =>
    intro acc n rest hn
    have hq : n / 10 ^ w < 10 := by
      rw [Nat.div_lt_iff_lt_mul (Nat.pos_pow_of_pos w (by omega))]
      calc n < 10 ^ (w + 1) := hn
        _ = 10 * 10 ^ w := by rw [pow_succ]; ring
        _ = 10 * 10 ^ w := rfl
    have hdig := digitChar_lt10 hq
    have hr : n % 10 ^ w < 10 ^ w := Nat.mod_lt _ (Nat.pos_pow_of_pos w (by omega))
    show takeDigitsAux (w + 1) acc
        ((digitChar (n / 10 ^ w) :: padDigits w (n % 10 ^ w)) ++ rest) = _
    rw [List.cons_append]
    unfold takeDigitsAux
    rw [if_pos hdig.1, hdig.2, ih _ _ rest hr]
    congr 2
    have hdm := Nat.div_add_mod n (10 ^ w)
    conv_rhs => rw [← hdm]
    rw [pow_succ]
    ring

theorem takeDigits_pad {w n : Nat} {rest : List Char} (hn : n < 10 ^ w) :
    takeDigits w (padDigits w n ++ rest) = some (n, rest) := by
  unfold takeDigits
  rw [takeDigitsAux_pad w 0 n rest hn]
  simp

theorem padDigits_all_digits : ∀ (w n : Nat), n < 10 ^ w →
    ∀ c ∈ padDigits w n, isDigitChar c = true := by
  intro w
  induction w with
  | zero =>
    intro n _ c hc
    simp [padDigits] at hc
  | succ w ih =>
    intro n hn c hc
    have hq : n / 10 ^ w < 10 := by
      rw [Nat.div_lt_iff_lt_mul (Nat.pos_pow_of_pos w (by omega))]
      calc n < 10 ^ (w + 1) := hn
        _ = 10 * 10 ^ w := by rw [pow_succ]; ring
    have hr : n % 10 ^ w < 10 ^ w := Nat.mod_lt _ (Nat.pos_pow_of_pos w (by omega))
    rcases List.mem_cons.mp hc with h1 | h1
    · subst h1
      exact (digitChar_lt10 hq).1
    · exact ih _ hr c h1

theorem natReprAux_length_pos (fuel n : Nat) : 1 ≤ (natReprAux fuel n).length := by
  cases fuel with
  | zero => simp [natReprAux]
  | succ f =>
    unfold natReprAux
    split
    · simp
    · simp only [List.length_append, List.length_cons, List.length_nil]
      omega

theorem natRepr_length_pos (n : Nat) : (natRepr n).length ≥ 1 :=
  natReprAux_length_pos n n

theorem pad_length_ge_two (n : Nat) : (pad n).length ≥ 2 := by
  unfold pad
  split
  · show ('0' :: natRepr n).length ≥ 2
    have := natRepr_length_pos n
    simp only [List.length_cons]
    omega
  · rename_i h
    show (natRepr n).length ≥ 2
    unfold natRepr
    cases n with
    | zero => exact absurd (by decide) h
    | succ m =>
      unfold natReprAux
      rw [if_neg h]
      simp only [List.length_append, List.length_cons, List.length_nil]
      have := natReprAux_length_pos m ((m + 1) / 10)
      omega

/-! ### Dates

A JavaScript `Date` produced by the plugin is modelled by its broken-down
components.  `tz` is the UTC offset (in minutes) that the parsed string
carried: `some 0` for `Z` (and for date-only forms, which ECMAScript
interprets as UTC), `none` when the string carried no offset designator
(interpreted as host-local time).  Records the plugin serializes always
carry `tz = some 0`, matching `Date.prototype.toISOString`'s UTC output. -/

structure DateParts where
  year : Nat
  month : Nat
  day : Nat
  hour : Nat
  minute : Nat
  second : Nat
  ms : Nat
  tz : Option Int
deriving DecidableEq

/-- Gregorian leap-year rule. -/
def isLeapYear (y : Nat) : Bool :=
  y % 4 = 0 && (y % 100 ≠ 0 || y % 400 = 0)

/-- Number of days in a month. -/
def daysInMonth (y m : Nat) : Nat :=
  if m = 2 then (if isLeapYear y then 29 else 28)
  else if m = 4 ∨ m = 6 ∨ m = 9 ∨ m = 11 then 30
  else 31

theorem daysInMonth_le (y m : Nat) : daysInMonth y m ≤ 31 := by
  unfold daysInMonth
  split
  · split <;> omega
  · split <;> omega

/-- Bundle parsed fields into a `DateParts` after the range checks that make
the string a valid instance of the ECMAScript date-time format. -/
def mkDate (y mo d h mi s ms : Nat) (tz : Option Int) : Option DateParts :=
  if 1 ≤ mo ∧ mo ≤ 12 ∧ 1 ≤ d ∧ d ≤ daysInMonth y mo ∧ h ≤ 23 ∧ mi ≤ 59 ∧ s ≤ 59
  then some ⟨y, mo, d, h, mi, s, ms, tz⟩
  else none

/-- Parse the `HH:MM` tail of a numeric UTC-offset designator. -/
def parseTzHM (cs : List Char) : Option Nat :=
  match takeDigits 2 cs with
  | none => none
  | some (h, rest) =>
    match rest with
    | [] => none
    | c :: r2 =>
      if c = ':' then
        match takeDigits 2 r2 with
        | none => none
        | some (m, rest2) =>
          if rest2 = [] ∧ h ≤ 23 ∧ m ≤ 59 then some (h * 60 + m) else none
      else none

/-- Parse the optional time-zone designator that ends a date-time string:
nothing (local time), `Z`, or `±HH:MM`. -/
def parseTzOffset (cs : List Char) : Option (Option Int) :=
  match cs with
  | [] => some none
  | c :: r =>
    if c = 'Z' then (if r = [] then some (some 0) else none)
    else if c = '+' then (parseTzHM r).map fun m => some (Int.ofNat m)
    else if c = '-' then (parseTzHM r).map fun m => some (-(Int.ofNat m : Int))
    else none

/-- Parse the time part `HH:mm[:ss[.sss]][offset]` that follows the `T`. -/
def parseTimePart (y mo d : Nat) (cs : List Char) : Option DateParts :=
  match takeDigits 2 cs with
  | none => none
  | some (h, rest) =>
    match rest with
    | [] => none
    | c :: r1 =>
      if c = ':' then
        match takeDigits 2 r1 with
        | none => none
        | some (mi, rest2) =>
          match rest2 with
          | [] => mkDate y mo d h mi 0 0 none
          | c2 :: r2 =>
            if c2 = ':' then
              match takeDigits 2 r2 with
              | none => none
              | some (s, rest3) =>
                match rest3 with
                | [] => mkDate y mo d h mi s 0 none
                | c3 :: r3 =>
                  if c3 = '.' then
                    match takeDigits 3 r3 with
                    | none => none
                    | some (ms, rest4) =>
                      match parseTzOffset rest4 with
                      | none => none
                      | some tz => mkDate y mo d h mi s ms tz
                  else
                    match parseTzOffset (c3 :: r3) with
                    | none => none
                    | some tz => mkDate y mo d h mi s 0 tz
            else
              match parseTzOffset (c2 :: r2) with
              | none => none
              | some tz => mkDate y mo d h mi 0 0 tz
      else none

/-- Modelled from the spec: the `Date.parse` call inside `parseTargetDate`
is host code absent from `src/`; following the spec's design note it is
modelled as the ECMAScript Date Time String Format
`YYYY[-MM[-DD]][THH:mm[:ss[.sss]][Z|±HH:MM]]` (simple four-digit years),
the only format the ECMAScript standard itself guarantees `Date.parse`
accepts.  Date-only strings are UTC; a missing offset means local time. -/
def parseDateTime (cs : List Char) : Option DateParts :=
  match takeDigits 4 cs with
  | none => none
  | some (y, rest) =>
    match rest with
    | [] => mkDate y 1 1 0 0 0 0 (some 0)
    | c :: r1 =>
      if c = 'T' then parseTimePart y 1 1 r1
      else if c = '-' then
        match takeDigits 2 r1 with
        | none => none
        | some (mo, rest2) =>
          match rest2 with
          | [] => mkDate y mo 1 0 0 0 0 (some 0)
          | c2 :: r2 =>
            if c2 = 'T' then parseTimePart y mo 1 r2
            else if c2 = '-' then
              match takeDigits 2 r2 with
              | none => none
              | some (d, rest3) =>
                match rest3 with
                | [] => mkDate y mo d 0 0 0 0 (some 0)
                | c3 :: r3 => if c3 = 'T' then parseTimePart y mo d r3 else none
            else none
      else none

/-- Model of `input.trim().replace(/\s+/, "T")`'s replace step: the first
(maximal) whitespace run is replaced by a single `T`. -/
def replWs : List Char → List Char
  | [] => []
  | c :: rest => if jsWs c then 'T' :: rest.dropWhile jsWs else c :: replWs rest

/-- The source's `parseTargetDate`: reject empty input, trim, replace the
first whitespace run by `T`, then parse as a date-time string. -/
def parseTargetDate (input : String) : Option DateParts :=
  if input = "" then none
  else parseDateTime (replWs (trimList input.data))

/-- Character content of `Date.prototype.toISOString` output
(`YYYY-MM-DDTHH:mm:ss.sssZ`), for the years `0..9999` the simple format
covers. -/
def isoChars (p : DateParts) : List Char :=
  padDigits 4 p.year ++ '-' ::
    (padDigits 2 p.month ++ '-' ::
      (padDigits 2 p.day ++ 'T' ::
        (padDigits 2 p.hour ++ ':' ::
          (padDigits 2 p.minute ++ ':' ::
            (padDigits 2 p.second ++ '.' ::
              (padDigits 3 p.ms ++ ['Z']))))))

/-- Model of `Date.prototype.toISOString` (host code; format fixed by the
ECMAScript standard). -/
def toISOString (p : DateParts) : String :=
  ⟨isoChars p⟩

/-- The broken-down components describe an actual instant the plugin can
serialize: fields in range and the UTC offset of `toISOString` output. -/
def ValidDateParts (p : DateParts) : Prop :=
  p.year ≤ 9999 ∧ 1 ≤ p.month ∧ p.month ≤ 12 ∧ 1 ≤ p.day ∧
    p.day ≤ daysInMonth p.year p.month ∧ p.hour ≤ 23 ∧ p.minute ≤ 59 ∧
    p.second ≤ 59 ∧ p.ms ≤ 999 ∧ p.tz = some 0

instance : DecidablePred ValidDateParts := fun p => by
  unfold ValidDateParts
  infer_instance

/-! ### The ISO round trip -/

theorem replWs_eq_self_of_no_ws : ∀ {l : List Char},
    (∀ c ∈ l, jsWs c = false) → replWs l = l := by
  intro l
  induction l with
  | nil => intro _; rfl
  | cons a t ih =>
    intro h
    unfold replWs
    rw [if_neg (by simp [h a (List.mem_cons_self a t)]),
      ih fun c hc => h c (List.mem_cons_of_mem a hc)]

theorem isoChars_no_ws_nl {p : DateParts} (h : ValidDateParts p) :
    ∀ c ∈ isoChars p, jsWs c = false ∧ c ≠ '\n' := by
  obtain ⟨hy, hmo1, hmo2, hd1, hd2, hh, hmi, hs, hms, htz⟩ := h
  have h31 := daysInMonth_le p.year p.month
  intro c hc
  have hdig : isDigitChar c = true → jsWs c = false ∧ c ≠ '\n' :=
    fun hd => ⟨isDigitChar_not_ws hd, isDigitChar_ne_nl hd⟩
  simp only [isoChars, List.mem_append, List.mem_cons, List.not_mem_nil, or_false] at hc
  rcases hc with h1 | h1 | h1 | h1 | h1 | h1 | h1 | h1 | h1 | h1 | h1 | h1 | h1 | h1
  · exact hdig (padDigits_all_digits 4 p.year (by norm_num; omega) c h1)
  · subst h1; exact ⟨by decide, by decide⟩
  · exact hdig (padDigits_all_digits 2 p.month (by norm_num; omega) c h1)
  · subst h1; exact ⟨by decide, by decide⟩
  · exact hdig (padDigits_all_digits 2 p.day (by norm_num; omega) c h1)
  · subst h1; exact ⟨by decide, by decide⟩
  · exact hdig (padDigits_all_digits 2 p.hour (by norm_num; omega) c h1)
  · subst h1; exact ⟨by decide, by decide⟩
  · exact hdig (padDigits_all_digits 2 p.minute (by norm_num; omega) c h1)
  · subst h1; exact ⟨by decide, by decide⟩
  · exact hdig (padDigits_all_digits 2 p.second (by norm_num; omega) c h1)
  · subst h1; exact ⟨by decide, by decide⟩
  · exact hdig (padDigits_all_digits 3 p.ms (by norm_num; omega) c h1)
  · subst h1; exact ⟨by decide, by decide⟩

theorem isoChars_ne_nil {p : DateParts} : isoChars p ≠ [] := by
  unfold isoChars padDigits
  simp

theorem mkDate_valid {y mo d hh mi s ms : Nat} {tz : Option Int}
    (h1 : 1 ≤ mo) (h2 : mo ≤ 12) (h3 : 1 ≤ d) (h4 : d ≤ daysInMonth y mo)
    (h5 : hh ≤ 23) (h6 : mi ≤ 59) (h7 : s ≤ 59) :
    mkDate y mo d hh mi s ms tz = some ⟨y, mo, d, hh, mi, s, ms, tz⟩ := by
  unfold mkDate
  exact if_pos ⟨h1, h2, h3, h4, h5, h6, h7⟩

theorem parseDateTime_isoChars {p : DateParts} (h : ValidDateParts p) :
    parseDateTime (isoChars p) = some p := by
  obtain ⟨y, mo, d, hr, mi, s, ms, tz⟩ := p
  obtain ⟨hy, hmo1, hmo2, hd1, hd2, hh, hmi, hs, hms, htz⟩ := h
  simp only at hy hmo1 hmo2 hd1 hd2 hh hmi hs hms htz
  subst htz
  have h31 := daysInMonth_le y mo
  unfold parseDateTime
  simp only [isoChars]
  rw [takeDigits_pad (show y < 10 ^ 4 by norm_num; omega)]
  dsimp only []
  simp only [Char.reduceEq, if_true, if_false]
  rw [takeDigits_pad (show mo < 10 ^ 2 by norm_num; omega)]
  dsimp only []
  simp only [Char.reduceEq, if_true, if_false]
  rw [takeDigits_pad (show d < 10 ^ 2 by norm_num; omega)]
  dsimp only []
  simp only [Char.reduceEq, if_true, if_false]
  unfold parseTimePart
  rw [takeDigits_pad (show hr < 10 ^ 2 by norm_num; omega)]
  dsimp only []
  simp only [Char.reduceEq, if_true, if_false]
  rw [takeDigits_pad (show mi < 10 ^ 2 by norm_num; omega)]
  dsimp only []
  simp only [Char.reduceEq, if_true, if_false]
  rw [takeDigits_pad (show s < 10 ^ 2 by norm_num; omega)]
  dsimp only []
  simp only [Char.reduceEq, if_true, if_false]
  rw [takeDigits_pad (show ms < 10 ^ 3 by norm_num; omega)]
  dsimp only []
  rw [show parseTzOffset ['Z'] = some (some 0) from rfl]
  dsimp only []
  exact mkDate_valid hmo1 hmo2 hd1 hd2 hh hmi hs

theorem parseTargetDate_toISOString {p : DateParts} (h : ValidDateParts p) :
    parseTargetDate (toISOString p) = some p := by
  have hsafe := isoChars_no_ws_nl h
  unfold parseTargetDate toISOString
  rw [if_neg (by
    intro he
    have := congrArg String.data he
    simp only at this
    exact isoChars_ne_nil this)]
  show parseDateTime (replWs (trimList (isoChars p))) = some p
  rw [trimList_eq_self_of_no_ws fun c hc => (hsafe c hc).1]
  rw [replWs_eq_self_of_no_ws fun c hc => (hsafe c hc).1]
  exact parseDateTime_isoChars h

/-! ### Colour utilities (`normaliseColor`, `colorsEqual`) -/

/-- The source's `normaliseColor`: reject falsy input, trim, then match the
anchored regex `^#([0-9a-fA-F]{6})$` and uppercase the captured digits. -/
def normaliseColor : Option String → Option String
  | none => none
  | some input =>
    if input = "" then none
    else
      match (jsTrim input).data with
      | c :: rest =>
        if c = '#' ∧ rest.length = 6 ∧ rest.all isHexDigit = true then
          some ⟨'#' :: rest.map toUpperCaseHex⟩
        else none
      | [] => none

/-- The source's `colorsEqual`: `normaliseColor(a) === normaliseColor(b)`
(note `null === null` is `true` in JavaScript, hence `Option` equality). -/
def colorsEqual (a b : String) : Bool :=
  normaliseColor (some a) == normaliseColor (some b)

/-! ### Text codec -/

/-- Result record of `parseCountdownSource`. -/
structure CountdownParse where
  target : Option DateParts
  label : String
  color : String
deriving DecidableEq

/-- The source's `serializeCountdownLines`: fence, ISO target, label,
colour, fence. -/
def serializeCountdownLines (target label color : String) : List String :=
  ["```countdown", target, label, color, "```"]

/-- JavaScript `x || fallback` for an optionally-present string. -/
def jsOrString (o : Option String) (fallback : String) : String :=
  match o with
  | some s => if s = "" then fallback else s
  | none => fallback

/-- The line preprocessing of `parseCountdownSource`:
`source.split(/\r?\n/).map(trim).filter(length > 0)`. -/
def nonEmptyLines (source : String) : List String :=
  ((splitLinesJs source).map jsTrim).filter fun l => l ≠ ""

/-- Body of `parseCountdownSource` after line preprocessing: empty line list
gives an absent target and the fallbacks; otherwise line 1 is the target
(`parseTargetDate`), line 2 the label (`(lines[1] || fallbackLabel).trim()`),
line 3 the colour (`normaliseColor(lines[2]) ?? fallbackColor`). -/
def parseLinesModel (lines : List String) (fallbackLabel fallbackColor : String) :
    CountdownParse :=
  match lines with
  | [] => ⟨none, fallbackLabel, fallbackColor⟩
  | l0 :: rest =>
    ⟨parseTargetDate l0,
     jsTrim (jsOrString (rest.get? 0) fallbackLabel),
     (normaliseColor (rest.get? 1)).getD fallbackColor⟩

/-- The source's `parseCountdownSource`. -/
def parseCountdownSource (source fallbackLabel fallbackColor : String) : CountdownParse :=
  parseLinesModel (nonEmptyLines source) fallbackLabel fallbackColor

/-! ### Block rendering outcome -/

/-- What `renderCountdownBlock` does with a block body: show the
"missing target" message, show the "invalid target" message, or mount a
widget with the parsed record. -/
inductive BlockRender
  | missingTarget
  | invalidTarget
  | widget (target : DateParts) (label color : String)
deriving DecidableEq

/-- The source's `renderCountdownBlock` decision logic: when the parse has
no target, the message depends on `source.trim().length`. -/
def renderCountdownBlock (source fallbackLabel fallbackColor : String) : BlockRender :=
  let trimmedSource := jsTrim source
  let parsed := parseCountdownSource source fallbackLabel fallbackColor
  match parsed.target with
  | none => if trimmedSource ≠ "" then .invalidTarget else .missingTarget
  | some t => .widget t parsed.label parsed.color

/-! ### Render widget tick and timer state -/

/-- `Math.max(0, Math.floor(diffMs / 1000))` (JavaScript `Math.floor`
rounds toward minus infinity; `Int.toNat` clamps negatives to `0`). -/
def totalSeconds (diffMs : Int) : Nat :=
  (diffMs.fdiv 1000).toNat

/-- Observable widget state: the four digit cells, the expired CSS class,
and whether the repeating 1-second interval is registered. -/
structure ViewState where
  days : String
  hours : String
  minutes : String
  seconds : String
  expired : Bool
  intervalActive : Bool
deriving DecidableEq

/-- The source's `CountdownView.tick`, as a state transition parameterised
by `diffMs = target.getTime() - Date.now()`. -/
def tick (diffMs : Int) (st : ViewState) : ViewState :=
  let ts := totalSeconds diffMs
  { days := pad (ts / 86400)
    hours := pad (ts % 86400 / 3600)
    minutes := pad (ts % 3600 / 60)
    seconds := pad (ts % 60)
    expired := decide (diffMs ≤ 0)
    intervalActive := if diffMs ≤ 0 then false else st.intervalActive }

/-- State after `setupDom`: all cells created with text `"00"`, no expired
class, no interval registered yet. -/
def mountState : ViewState :=
  ⟨"00", "00", "00", "00", false, false⟩

/-- The source's `CountdownView.onload`: one immediate tick (while no
interval is registered), then `setInterval` registers the repeating timer. -/
def onloadView (diffMs : Int) : ViewState :=
  { tick diffMs mountState with intervalActive := true }

/-- Events that can reach a mounted view: a timer/edit-triggered `tick`
with the current time difference, or `onunload`. -/
inductive VEvent
  | tickEvent (diffMs : Int)
  | unloadEvent

/-- One event step of the mounted widget. -/
def stepView (st : ViewState) : VEvent → ViewState
  | .tickEvent d => tick d st
  | .unloadEvent => { st with intervalActive := false }

/-- Run a sequence of events against a view state. -/
def runView (st : ViewState) (evts : List VEvent) : ViewState :=
  evts.foldl stepView st

/-! ### Settings panel: duration field -/

/-- The duration `onChange` handler: `parsed = Number(value)` is modelled as
`none` for a non-finite result and `some q` for the finite double `q`
(doubles are rationals and `Math.floor` is exact on them).  Non-finite or
non-positive input keeps the current value; otherwise the floor is stored. -/
def durationOnChange (current : Int) (parsed : Option ℚ) : Int :=
  match parsed with
  | none => current
  | some q => if q ≤ 0 then current else ⌊q⌋

/-! ### Edit modal submit -/

/-- The user-visible notices `handleSubmit` can raise. -/
inductive NoticeKind
  | emptyWarning
  | parseWarning
  | applyError
deriving DecidableEq

/-- Outcome of one `handleSubmit` call: the payload the `onSubmit` handler
was invoked with (if it was), the notice shown, and whether the modal
closed. -/
structure SubmitOutcome where
  invoked : Option (DateParts × String × String)
  notice : Option NoticeKind
  closed : Bool
deriving DecidableEq

/-- The source's `CountdownModal.handleSubmit`.  `handlerOk` models whether
the caller-supplied `onSubmit` handler runs without throwing. -/
def handleSubmit (targetValue labelValue colorValue defaultLabel defaultColor : String)
    (handlerOk : Bool) : SubmitOutcome :=
  if targetValue = "" then ⟨none, some .emptyWarning, false⟩
  else
    match parseTargetDate targetValue with
    | none => ⟨none, some .parseWarning, false⟩
    | some d =>
      let label := jsOrString (some (jsTrim labelValue)) defaultLabel
      let color := (normaliseColor (some colorValue)).getD defaultColor
      match handlerOk with
      | true => ⟨some (d, label, color), none, true⟩
      | false => ⟨some (d, label, color), some .applyError, false⟩

/-! ### Locale resolution and default label -/

/-- The two string tables that exist. -/
inductive Lang
  | en
  | zh
deriving DecidableEq

/-- The `defaultLabel` entry of each string table. -/
def defaultLabelOf : Lang → String
  | .en => "Countdown"
  | .zh => "倒计时"

/-- JavaScript `a ?? b` on optionally-present strings: `none` models both
`undefined` and a non-string value, `some s` a string value (including the
empty string, which `??` does not skip). -/
def orNullish (a b : Option String) : Option String :=
  match a with
  | some s => some s
  | none => b

/-- `String.prototype.toLowerCase` (ASCII model; sufficient for the `zh`
check below). -/
def jsToLower (s : String) : String :=
  ⟨s.data.map Char.toLower⟩

/-- `locale.startsWith("zh")`. -/
def startsWithZh (s : String) : Bool :=
  match s.data with
  | c1 :: c2 :: _ => c1 == 'z' && c2 == 'h'
  | _ => false

/-- The source's `getTranslations`: the candidate is
`app.locale ?? app.lang ?? vault locale ?? (storage "language" ?? storage
"lang") ?? navigator.language ?? "en"`, and the `zh` table is chosen
exactly when the lower-cased candidate starts with `"zh"`. -/
def getTranslations (appLocale appLang vaultLocale storageLanguage storageLang
    navigatorLanguage : Option String) : Lang :=
  let localeCandidate :=
    (orNullish appLocale
      (orNullish appLang
        (orNullish vaultLocale
          (orNullish (orNullish storageLanguage storageLang)
            navigatorLanguage)))).getD "en"
  if startsWithZh (jsToLower localeCandidate) then .zh else .en

/-- The source's `getDefaultLabel`: trimmed custom label, with the empty
result and the cross-language stock labels replaced by the current table's
default. -/
def getDefaultLabel (settingsDefaultLabel : String) (lang : Lang) : String :=
  let custom := jsTrim settingsDefaultLabel
  if custom = "" then defaultLabelOf lang
  else if lang = .en ∧ custom = defaultLabelOf .zh then defaultLabelOf .en
  else if lang = .zh ∧ custom = defaultLabelOf .en then defaultLabelOf .zh
  else custom

/-! ### Line-level lemmas for the codec -/

theorem mem_of_getLast? : ∀ {l : List Char} {c : Char}, l.getLast? = some c → c ∈ l := by
  intro l c h
  cases l with
  | nil => simp at h
  | cons a t =>
    have he : c = (a :: t).getLast (by simp) := by
      rw [List.getLast?_eq_getLast (a :: t) (by simp)] at h
      exact (Option.some.injEq _ _).mp h.symm
    rw [he]
    exact List.getLast_mem _

theorem mem_splitOnNl_no_nl : ∀ {l seg : List Char}, seg ∈ splitOnNl l → '\n' ∉ seg := by
  intro l
  induction l with
  | nil =>
    intro seg hseg
    simp only [splitOnNl, List.mem_singleton] at hseg
    subst hseg
    simp
  | cons a t ih =>
    intro seg hseg
    by_cases ha : a = '\n'
    · unfold splitOnNl at hseg
      rw [if_pos ha] at hseg
      rcases List.mem_cons.mp hseg with h1 | h1
      · subst h1; simp
      · exact ih h1
    · rcases hs : splitOnNl t with _ | ⟨u, us⟩
      · exact absurd hs (splitOnNl_ne_nil t)
      · rw [splitOnNl_cons_of_ne ha hs] at hseg
        rcases List.mem_cons.mp hseg with h1 | h1
        · subst h1
          intro hmem
          rcases List.mem_cons.mp hmem with h2 | h2
          · exact ha h2.symm
          · exact ih (by rw [hs]; exact List.mem_cons_self u us) h2
        · exact ih (by rw [hs]; exact List.mem_cons_of_mem u h1)

/-- Every line produced by `nonEmptyLines` is trimmed, non-empty, free of
newlines, and does not end in a carriage return. -/
theorem nonEmptyLines_mem {s : String} {l : String} (h : l ∈ nonEmptyLines s) :
    jsTrim l = l ∧ l ≠ "" ∧ '\n' ∉ l.data ∧ l.data.getLast? ≠ some '\r' := by
  unfold nonEmptyLines at h
  have hmm := List.mem_filter.mp h
  obtain ⟨hmem, hne⟩ := hmm
  have hne' : l ≠ "" := by simpa using hne
  obtain ⟨l1, hl1, hl1e⟩ := List.mem_map.mp hmem
  unfold splitLinesJs at hl1
  obtain ⟨seg, hseg, hsege⟩ := List.mem_map.mp hl1
  subst hsege
  subst hl1e
  refine ⟨?_, hne', ?_, ?_⟩
  · show jsTrim ⟨trimList (dropCr seg)⟩ = ⟨trimList (dropCr seg)⟩
    unfold jsTrim
    rw [show (⟨trimList (dropCr seg)⟩ : String).data = trimList (dropCr seg) from rfl]
    rw [trimList_idem]
  · show '\n' ∉ trimList (dropCr seg)
    intro hmemnl
    exact mem_splitOnNl_no_nl hseg (dropCr_sub _ (trimList_sub _ hmemnl))
  · show (trimList (dropCr seg)).getLast? ≠ some '\r'
    intro hlast
    have := trimList_getLast_false hlast
    simp [jsWs] at this

/-- `nonEmptyLines` is a left inverse of `joinLines` on lists of lines that
look like `nonEmptyLines` output. -/
theorem nonEmptyLines_joinLines {L : List String} (hne : L ≠ [])
    (h : ∀ l ∈ L, jsTrim l = l ∧ l ≠ "" ∧ '\n' ∉ l.data ∧ l.data.getLast? ≠ some '\r') :
    nonEmptyLines (joinLines L) = L := by
  unfold nonEmptyLines splitLinesJs joinLines
  rw [show (⟨joinNl (L.map String.data)⟩ : String).data = joinNl (L.map String.data) from rfl]
  rw [splitOnNl_joinNl (by simpa using hne) (by
    intro l hl
    obtain ⟨l0, hl0, hl0e⟩ := List.mem_map.mp hl
    subst hl0e
    exact (h l0 hl0).2.2.1)]
  rw [List.map_map, List.map_map]
  have hmap : List.map ((jsTrim ∘ fun l => (⟨dropCr l⟩ : String)) ∘ String.data) L =
      List.map id L := by
    apply List.map_congr_left
    intro l hl
    obtain ⟨htrim, -, -, hcr⟩ := h l hl
    show jsTrim ⟨dropCr l.data⟩ = id l
    rw [dropCr_no_cr hcr]
    exact htrim
  rw [hmap, List.map_id]
  rw [List.filter_eq_self.mpr]
  intro l hl
  simpa using (h l hl).2.1

/-- A string whose characters are all non-whitespace is its own trim. -/
theorem jsTrim_eq_self_of_no_ws {s : String} (h : ∀ c ∈ s.data, jsWs c = false) :
    jsTrim s = s := by
  unfold jsTrim
  rw [trimList_eq_self_of_no_ws h]

/-- What being a `normaliseColor` fixed point says about the string. -/
theorem normaliseColor_fixed {c : String} (h : normaliseColor (some c) = some c) :
    c ≠ "" ∧ ∀ x ∈ c.data, jsWs x = false ∧ x ≠ '\n' := by
  simp only [normaliseColor] at h
  by_cases hce : c = ""
  · rw [if_pos hce] at h
    exact absurd h (by simp)
  · rw [if_neg hce] at h
    refine ⟨hce, ?_⟩
    rcases ht : (jsTrim c).data with _ | ⟨a, rest⟩
    · rw [ht] at h
      exact absurd h (by simp)
    · rw [ht] at h
      dsimp only [] at h
      by_cases hcond : a = '#' ∧ rest.length = 6 ∧ rest.all isHexDigit = true
      · rw [if_pos hcond] at h
        have hdata : c.data = '#' :: rest.map toUpperCaseHex := by
          have := (Option.some.injEq _ _).mp h
          rw [← this]
        intro x hx
        rw [hdata] at hx
        rcases List.mem_cons.mp hx with h1 | h1
        · subst h1
          exact ⟨by decide, by decide⟩
        · obtain ⟨x0, hx0, hx0e⟩ := List.mem_map.mp h1
          subst hx0e
          have hhex := List.all_eq_true.mp hcond.2.2 x0 hx0
          obtain ⟨hw, hnl, -⟩ := toUpperCaseHex_hex hhex
          exact ⟨hw, hnl⟩
      · rw [if_neg hcond] at h
        exact absurd h (by simp)

/-- When `nonEmptyLines` is empty, `source.trim()` is the empty string. -/
theorem nonEmptyLines_nil_trim {s : String} (h : nonEmptyLines s = []) : jsTrim s = "" := by
  unfold jsTrim
  have htr : trimList s.data = [] := by
    rw [trimList_eq_nil_iff]
    intro c hc
    rcases mem_splitOnNl_cover hc with h1 | ⟨seg, hseg, hcs⟩
    · subst h1
      decide
    · rcases dropCr_cover c hcs with h2 | h2
      · have hline : jsTrim ⟨dropCr seg⟩ ∈ (splitLinesJs s).map jsTrim := by
          apply List.mem_map_of_mem
          unfold splitLinesJs
          exact List.mem_map_of_mem _ hseg
        have hempty : jsTrim ⟨dropCr seg⟩ = "" := by
          unfold nonEmptyLines at h
          rw [List.filter_eq_nil_iff] at h
          have := h _ hline
          simpa using this
        have hallws : ∀ x ∈ dropCr seg, jsWs x = true := by
          rw [← trimList_eq_nil_iff]
          have := congrArg String.data hempty
          simpa [jsTrim] using this
        exact hallws c h2
      · subst h2
        decide
  rw [htr]

/-- When `nonEmptyLines` is non-empty, `source.trim()` is not empty. -/
theorem nonEmptyLines_cons_not_trim {s l0 : String} {rest : List String}
    (h : nonEmptyLines s = l0 :: rest) : jsTrim s ≠ "" := by
  have hl0 : l0 ∈ nonEmptyLines s := by
    rw [h]
    exact List.mem_cons_self _ _
  unfold nonEmptyLines at hl0
  obtain ⟨hmem, hne⟩ := List.mem_filter.mp hl0
  obtain ⟨l1, hl1, hl1e⟩ := List.mem_map.mp hmem
  unfold splitLinesJs at hl1
  obtain ⟨seg, hseg, hsege⟩ := List.mem_map.mp hl1
  subst hsege
  subst hl1e
  have hne2 : trimList (dropCr seg) ≠ [] := by
    intro he
    have : jsTrim (⟨dropCr seg⟩ : String) = "" := by
      unfold jsTrim
      rw [show (⟨dropCr seg⟩ : String).data = dropCr seg from rfl, he]
    simp [this] at hne
  have hex : ¬ ∀ x ∈ dropCr seg, jsWs x = true :=
    fun hall => hne2 (trimList_eq_nil_iff.mpr hall)
  push_neg at hex
  obtain ⟨x, hx, hxw⟩ := hex
  intro htr
  have hall : ∀ c ∈ s.data, jsWs c = true := by
    rw [← trimList_eq_nil_iff]
    have := congrArg String.data htr
    simpa [jsTrim] using this
  exact hxw (hall x (mem_splitOnNl_sub hseg x (dropCr_sub x hx)))

/-- `parseLinesModel` only looks at the first three lines. -/
theorem parseLines_take3 (lines : List String) (fb fc : String) :
    parseLinesModel (lines.take 3) fb fc = parseLinesModel lines fb fc := by
  cases lines with
  | nil => rfl
  | cons l0 rest =>
    show parseLinesModel (l0 :: rest.take 2) fb fc = parseLinesModel (l0 :: rest) fb fc
    unfold parseLinesModel
    dsimp only []
    have h0 : (rest.take 2).get? 0 = rest.get? 0 := by
      rw [List.get?_eq_getElem?, List.get?_eq_getElem?, List.getElem?_take]
      simp
    have h1 : (rest.take 2).get? 1 = rest.get? 1 := by
      rw [List.get?_eq_getElem?, List.get?_eq_getElem?, List.getElem?_take]
      simp
    rw [h0, h1]

/-- `getDefaultLabel` always returns a trimmed string. -/
theorem getDefaultLabel_trimmed (settingsDefaultLabel : String) (lang : Lang) :
    jsTrim (getDefaultLabel settingsDefaultLabel lang) =
      getDefaultLabel settingsDefaultLabel lang := by
  unfold getDefaultLabel
  dsimp only []
  split
  · cases lang <;> decide
  · split
    · decide
    · split
      · decide
      · show jsTrim (jsTrim settingsDefaultLabel) = jsTrim settingsDefaultLabel
        unfold jsTrim
        rw [show (⟨trimList settingsDefaultLabel.data⟩ : String).data =
          trimList settingsDefaultLabel.data from rfl, trimList_idem]

/-! ## Claim theorems -/

/-- Claim C2, counterexample: the claim says an unnormalizable input is
never reported equal to anything, but `colorsEqual` compares the two
`normaliseColor` results with `===`, and `null === null` holds: the two
distinct unnormalizable strings `"red"` and `"blue"` are reported equal. -/
theorem colorsEqual_claim_counterexample :
    normaliseColor (some "red") = none ∧ normaliseColor (some "blue") = none ∧
      "red" ≠ "blue" ∧ colorsEqual "red" "blue" = true := by
  refine ⟨by decide, by decide, by decide, ?_⟩
  decide

/-- Claim C2, amended: when `a` is unnormalizable, `colorsEqual a b` holds
exactly when `b` is unnormalizable too (both sides normalise to `null`);
in particular it is `false` whenever `b` normalises. -/
theorem colorsEqual_unnormalizable (a b : String)
    (h : normaliseColor (some a) = none) :
    colorsEqual a b = true ↔ normaliseColor (some b) = none := by
  unfold colorsEqual
  rw [h]
  cases hb : normaliseColor (some b) <;> simp

/-- Claim C2, witness: an unnormalizable string is not equal to a colour
that does normalise. -/
theorem colorsEqual_unnormalizable_witness : colorsEqual "red" "#12B76A" = false := by
  have h := colorsEqual_unnormalizable "red" "#12B76A" (by decide)
  have hb : normaliseColor (some "#12B76A") = some "#12B76A" := by decide
  cases hc : colorsEqual "red" "#12B76A"
  · rfl
  · rw [h.mp hc] at hb
    exact absurd hb (by simp)

/-- The spec's anchored colour pattern `#[0-9a-fA-F]{6}`: exactly seven
characters, a leading `#`, six hex digits, nothing else (in particular no
surrounding whitespace). -/
def matchesHexPattern (s : String) : Bool :=
  s.data.length == 7 && s.data.head? == some '#' && (s.data.drop 1).all isHexDigit

/-- Claim C3, counterexample: the claim says `normaliseColor` succeeds only
on strings that match the anchored pattern with no surrounding whitespace,
but the code trims first: `" #aabbcc"` does not match the pattern yet
normalises to `"#AABBCC"`. -/
theorem normaliseColor_claim_counterexample :
    matchesHexPattern " #aabbcc" = false ∧
      normaliseColor (some " #aabbcc") = some "#AABBCC" := by
  refine ⟨by decide, ?_⟩
  decide

/-- Claim C3, amended: `normaliseColor` succeeds exactly when the *trimmed*
input matches `#[0-9a-fA-F]{6}`, and then returns the trimmed input with
its hex digits uppercased; every other input (3-digit hex, named colours,
`rgb()` syntax, out-of-range characters) yields `null`. -/
theorem normaliseColor_spec (s : String) :
    ((normaliseColor (some s)).isSome = true ↔ matchesHexPattern (jsTrim s) = true) ∧
    (matchesHexPattern (jsTrim s) = true →
      normaliseColor (some s) = some ⟨(jsTrim s).data.map toUpperCaseHex⟩) := by
  by_cases hse : s = ""
  · subst hse
    exact ⟨by decide, by decide⟩
  · have hcolor : normaliseColor (some s) =
        (match (jsTrim s).data with
          | c :: rest =>
            if c = '#' ∧ rest.length = 6 ∧ rest.all isHexDigit = true then
              some ⟨'#' :: rest.map toUpperCaseHex⟩
            else none
          | [] => none) := by
      simp only [normaliseColor]
      rw [if_neg hse]
    rcases ht : (jsTrim s).data with _ | ⟨a, rest⟩
    · rw [ht] at hcolor
      constructor
      · rw [hcolor]
        unfold matchesHexPattern
        rw [ht]
        simp
      · intro hm
        unfold matchesHexPattern at hm
        rw [ht] at hm
        simp at hm
    · rw [ht] at hcolor
      dsimp only [] at hcolor
      by_cases hcond : a = '#' ∧ rest.length = 6 ∧ rest.all isHexDigit = true
      · obtain ⟨ha, hlen, hhex⟩ := hcond
        subst ha
        rw [if_pos ⟨rfl, hlen, hhex⟩] at hcolor
        have hm : matchesHexPattern (jsTrim s) = true := by
          unfold matchesHexPattern
          rw [ht]
          simp [hlen, hhex]
        constructor
        · rw [hcolor]
          simp [hm]
        · intro _
          rw [hcolor, List.map_cons]
          rfl
      · rw [if_neg hcond] at hcolor
        have hm : matchesHexPattern (jsTrim s) = false := by
          by_contra hmc
          have hm1 : matchesHexPattern (jsTrim s) = true := by
            cases hz : matchesHexPattern (jsTrim s)
            · exact absurd hz hmc
            · rfl
          unfold matchesHexPattern at hm1
          rw [ht] at hm1
          simp only [List.length_cons, List.head?_cons, List.drop_succ_cons,
            List.drop_zero, Bool.and_eq_true, beq_iff_eq, Option.some.injEq] at hm1
          exact hcond ⟨hm1.1.2, by omega, hm1.2⟩
        rw [hcolor, hm]
        constructor
        · simp
        · intro hfalse
          simp at hfalse

/-- Claim C3, witness: a lower-case colour normalises to the uppercased
trim of itself. -/
theorem normaliseColor_spec_witness :
    normaliseColor (some "#2e90fa") =
      some ⟨(jsTrim "#2e90fa").data.map toUpperCaseHex⟩ :=
  (normaliseColor_spec "#2e90fa").2 (by decide)

/-- Claim C5: the settings duration handler violates the positive-integer
invariant that the claim states it preserves.  `"0.5"` parses to the
finite positive double `1/2`, which passes the `parsed <= 0` guard, and
`Math.floor(0.5) = 0` is stored — not a positive integer. -/
theorem durationOnChange_half_bug :
    (0 : ℚ) < 1 / 2 ∧ durationOnChange 60 (some (1 / 2 : ℚ)) = 0 ∧
      ¬ (0 : Int) > 0 := by
  refine ⟨by norm_num, ?_, by norm_num⟩
  unfold durationOnChange
  dsimp only []
  rw [if_neg (by norm_num)]
  norm_num [Int.floor_eq_zero_iff]

/-- Claim C9, counterexample: the claim says the first *non-empty* string
wins, but `??` only skips `null`/`undefined`: an empty-string host locale
field wins over a later `"zh"` language field, so the table resolves to
English where the claim predicts Chinese. -/
theorem getTranslations_claim_counterexample :
    getTranslations (some "") (some "zh") none none none none = Lang.en ∧
      getTranslations none (some "zh") none none none none = Lang.zh := by
  refine ⟨?_, ?_⟩ <;> decide

/-- The language table a locale string selects: `zh` exactly when its
lower-casing starts with `"zh"`. -/
def langOf (s : String) : Lang :=
  if startsWithZh (jsToLower s) then .zh else .en

/-- Claim C9, amended: locale resolution queries, in order, the host locale
field, the host language field, the vault config locale, the browser
storage `"language"` then `"lang"` keys, and the navigator language; the
first *string-typed* value wins — including the empty string — with `"en"`
the fallback when none is a string; the chosen locale maps to the `zh`
table exactly when its lower-casing starts with `"zh"`. -/
theorem getTranslations_order :
    (∀ (s : String) (h2 h3 h4 h5 h6 : Option String),
        getTranslations (some s) h2 h3 h4 h5 h6 = langOf s) ∧
    (∀ (s : String) (h3 h4 h5 h6 : Option String),
        getTranslations none (some s) h3 h4 h5 h6 = langOf s) ∧
    (∀ (s : String) (h4 h5 h6 : Option String),
        getTranslations none none (some s) h4 h5 h6 = langOf s) ∧
    (∀ (s : String) (h5 h6 : Option String),
        getTranslations none none none (some s) h5 h6 = langOf s) ∧
    (∀ (s : String) (h6 : Option String),
        getTranslations none none none none (some s) h6 = langOf s) ∧
    (∀ (s : String),
        getTranslations none none none none none (some s) = langOf s) ∧
    getTranslations none none none none none none = Lang.en := by
  refine ⟨?_, ?_, ?_, ?_, ?_, ?_, ?_⟩ <;> intros <;> rfl

/-- Claim C4, counterexample: the claim ties expiry to `totalSeconds = 0`,
but the code tests `diffMs <= 0`.  At `diffMs = 500` the whole-second
remainder is `0` and every cell shows `"00"`, yet the widget is not marked
expired and its 1-second timer keeps running. -/
theorem tick_claim_counterexample :
    totalSeconds 500 = 0 ∧
      tick 500 (onloadView 500) =
        ⟨"00", "00", "00", "00", false, true⟩ := by
  refine ⟨by decide, ?_⟩
  decide

/-- Claim C4, amended: on every tick with `diffMs <= 0` (hence
`totalSeconds = 0`) the widget shows `"00"` in all four cells, marks itself
expired and cancels the repeating timer; and once the timer is inactive no
later tick or unload ever reactivates it (only a full remount does). -/
theorem tick_expiry (d : Int) (st : ViewState) (hd : d ≤ 0) :
    tick d st = ⟨"00", "00", "00", "00", true, false⟩ ∧
    totalSeconds d = 0 ∧
    ∀ (st' : ViewState) (evts : List VEvent), st'.intervalActive = false →
      (runView st' evts).intervalActive = false := by
  have hts : totalSeconds d = 0 := by
    unfold totalSeconds
    have h1 : d.fdiv 1000 ≤ 0 := by
      cases d with
      | ofNat n =>
        simp only [Int.ofNat_eq_coe] at hd
        have hn : n = 0 := by omega
        subst hn
        decide
      | negSucc m =>
        rw [show (Int.negSucc m).fdiv 1000 = Int.negSucc (m / 1000) from rfl,
          Int.negSucc_eq]
        omega
    omega
  refine ⟨?_, hts, ?_⟩
  · unfold tick
    dsimp only []
    rw [hts]
    have hp : pad 0 = "00" := by decide
    simp only [Nat.zero_div, Nat.zero_mod, hp]
    have he : decide (d ≤ 0) = true := by simpa using hd
    rw [he, if_pos hd]
  · intro st' evts
    induction evts generalizing st' with
    | nil => exact fun h => h
    | cons e rest ih =>
      intro h
      apply ih
      cases e with
      | tickEvent dd =>
        show (tick dd st').intervalActive = false
        unfold tick
        dsimp only []
        split
        · rfl
        · exact h
      | unloadEvent => rfl

/-- Claim C4, witness: an expired tick zeroes the display, sets the
expired flag, clears the timer, and the timer stays cleared across later
events. -/
theorem tick_expiry_witness :
    tick (-1) mountState = ⟨"00", "00", "00", "00", true, false⟩ ∧
      (runView ⟨"00", "00", "00", "00", true, false⟩
        [VEvent.tickEvent 5000]).intervalActive = false := by
  have h := tick_expiry (-1) mountState (by omega)
  exact ⟨h.1, h.2.2 _ [VEvent.tickEvent 5000] rfl⟩

/-- Claim C6: submitting with an empty target shows the "empty" warning
and never invokes the handler; a non-empty unparsable target shows the
"parse" warning, also without invoking; an invoked handler that throws
leaves the modal open with the apply-error notice; and the modal closes
exactly when the handler was invoked and succeeded (cancel is a separate
button that simply closes). -/
theorem handleSubmit_spec (targetValue labelValue colorValue defaultLabel
    defaultColor : String) (handlerOk : Bool) :
    (targetValue = "" →
      handleSubmit targetValue labelValue colorValue defaultLabel defaultColor handlerOk =
        ⟨none, some .emptyWarning, false⟩) ∧
    (targetValue ≠ "" → parseTargetDate targetValue = none →
      handleSubmit targetValue labelValue colorValue defaultLabel defaultColor handlerOk =
        ⟨none, some .parseWarning, false⟩) ∧
    (∀ payload,
      (handleSubmit targetValue labelValue colorValue defaultLabel defaultColor
        handlerOk).invoked = some payload → handlerOk = false →
      handleSubmit targetValue labelValue colorValue defaultLabel defaultColor handlerOk =
        ⟨some payload, some .applyError, false⟩) ∧
    ((handleSubmit targetValue labelValue colorValue defaultLabel defaultColor
        handlerOk).closed = true →
      (handleSubmit targetValue labelValue colorValue defaultLabel defaultColor
        handlerOk).invoked.isSome = true ∧ handlerOk = true ∧
      (handleSubmit targetValue labelValue colorValue defaultLabel defaultColor
        handlerOk).notice = none) := by
  unfold handleSubmit
  by_cases he : targetValue = ""
  · rw [if_pos he]
    refine ⟨fun _ => rfl, fun hne _ => absurd he hne, ?_, ?_⟩
    · intro payload hp _
      simp at hp
    · intro hc
      simp at hc
  · rw [if_neg he]
    rcases hp : parseTargetDate targetValue with _ | d
    · refine ⟨fun h => absurd h he, fun _ _ => rfl, ?_, ?_⟩
      · intro payload hpay _
        simp at hpay
      · intro hc
        simp at hc
    · dsimp only []
      cases handlerOk
      · refine ⟨fun h => absurd h he, fun _ hn => absurd hn (by simp), ?_, ?_⟩
        · intro payload hpay _
          dsimp only [] at hpay
          obtain rfl := ((Option.some.injEq _ _).mp hpay)
          rfl
        · intro hc
          simp at hc
      · refine ⟨fun h => absurd h he, fun _ hn => absurd hn (by simp), ?_, ?_⟩
        · intro payload _ hok
          simp at hok
        · intro _
          exact ⟨rfl, rfl, rfl⟩

/-- Claim C6, witness: the three outcome classes at concrete inputs. -/
theorem handleSubmit_spec_witness :
    handleSubmit "" "l" "c" "dflt" "#F79009" true = ⟨none, some .emptyWarning, false⟩ ∧
    handleSubmit "nope" "l" "c" "dflt" "#F79009" true = ⟨none, some .parseWarning, false⟩ ∧
    handleSubmit "2030-01-01T00:00" "l" "#2e90fa" "dflt" "#F79009" false =
      ⟨some (⟨2030, 1, 1, 0, 0, 0, 0, none⟩, "l", "#2E90FA"), some .applyError, false⟩ := by
  refine ⟨(handleSubmit_spec "" "l" "c" "dflt" "#F79009" true).1 rfl,
    (handleSubmit_spec "nope" "l" "c" "dflt" "#F79009" true).2.1 (by decide) (by decide),
    (handleSubmit_spec "2030-01-01T00:00" "l" "#2e90fa" "dflt" "#F79009" false).2.2.1
      (⟨2030, 1, 1, 0, 0, 0, 0, none⟩, "l", "#2E90FA") (by decide) rfl⟩

/-- Claim C8: each tick displays exactly the integer decomposition of
`totalSeconds = max(0, floor(diffMs / 1000))` — days, hours, minutes,
seconds by `86400 / 3600 / 60 / 1` with the usual remainders, recomposing
to `totalSeconds` with hours, minutes and seconds in range — each cell
zero-padded to at least two digits; at `totalSeconds = 90061` the display
reads `01 01 01 01`. -/
theorem tick_decomposition (d : Int) (st : ViewState) :
    (tick d st).days = pad (totalSeconds d / 86400) ∧
    (tick d st).hours = pad (totalSeconds d % 86400 / 3600) ∧
    (tick d st).minutes = pad (totalSeconds d % 3600 / 60) ∧
    (tick d st).seconds = pad (totalSeconds d % 60) ∧
    totalSeconds d / 86400 * 86400 + totalSeconds d % 86400 / 3600 * 3600 +
      totalSeconds d % 3600 / 60 * 60 + totalSeconds d % 60 = totalSeconds d ∧
    totalSeconds d % 86400 / 3600 < 24 ∧
    totalSeconds d % 3600 / 60 < 60 ∧
    totalSeconds d % 60 < 60 ∧
    (∀ n : Nat, 2 ≤ (pad n).length) ∧
    tick 90061000 st = ⟨"01", "01", "01", "01", false, st.intervalActive⟩ := by
  refine ⟨rfl, rfl, rfl, rfl, by omega, by omega, by omega, by omega,
    pad_length_ge_two, ?_⟩
  have hts : totalSeconds 90061000 = 90061 := by decide
  unfold tick
  rw [hts]
  dsimp only []
  have he : decide ((90061000 : Int) ≤ 0) = false := by decide
  rw [he, if_neg (by decide)]
  rw [show pad (90061 / 86400) = "01" from by decide]

/-- Claim C7: a block body with zero non-empty lines renders the "missing
target" message, while a body whose first non-empty line fails to parse as
a date-time renders the distinct "invalid target" message; in particular
the empty body yields MissingTarget and the sole line `"not-a-date"`
yields InvalidTarget. -/
theorem renderCountdownBlock_errors (source fallbackLabel fallbackColor : String) :
    (nonEmptyLines source = [] →
      renderCountdownBlock source fallbackLabel fallbackColor = .missingTarget) ∧
    (∀ (l0 : String) (rest : List String),
      nonEmptyLines source = l0 :: rest → parseTargetDate l0 = none →
      renderCountdownBlock source fallbackLabel fallbackColor = .invalidTarget) ∧
    renderCountdownBlock "" fallbackLabel fallbackColor = .missingTarget ∧
    renderCountdownBlock "not-a-date" fallbackLabel fallbackColor = .invalidTarget := by
  have part1 : ∀ (s fb fc : String), nonEmptyLines s = [] →
      renderCountdownBlock s fb fc = .missingTarget := by
    intro s fb fc h
    unfold renderCountdownBlock parseCountdownSource
    dsimp only []
    rw [h, nonEmptyLines_nil_trim h]
    dsimp only [parseLinesModel]
    rw [if_neg (by simp)]
  have part2 : ∀ (s fb fc l0 : String) (rest : List String),
      nonEmptyLines s = l0 :: rest → parseTargetDate l0 = none →
      renderCountdownBlock s fb fc = .invalidTarget := by
    intro s fb fc l0 rest h hp
    unfold renderCountdownBlock parseCountdownSource
    dsimp only []
    rw [h]
    dsimp only [parseLinesModel]
    rw [hp]
    dsimp only []
    rw [if_pos (nonEmptyLines_cons_not_trim h)]
  refine ⟨part1 source fallbackLabel fallbackColor,
    fun l0 rest h hp => part2 source fallbackLabel fallbackColor l0 rest h hp,
    part1 "" fallbackLabel fallbackColor (by decide),
    part2 "not-a-date" fallbackLabel fallbackColor "not-a-date" [] (by decide) (by decide)⟩

/-- Claim C7, witness: a whitespace-only body renders MissingTarget; a body
with an unparsable first line renders InvalidTarget. -/
theorem renderCountdownBlock_errors_witness :
    renderCountdownBlock "\n  \n" "fb" "#F79009" = .missingTarget ∧
      renderCountdownBlock "soon\nlabel" "fb" "#F79009" = .invalidTarget := by
  refine ⟨(renderCountdownBlock_errors "\n  \n" "fb" "#F79009").1 (by decide),
    (renderCountdownBlock_errors "soon\nlabel" "fb" "#F79009").2.1 "soon" ["label"]
      (by decide) (by decide)⟩

/-- Claim C10: the parse result depends only on the first three non-empty
trimmed lines of the body — blank and whitespace-only lines are discarded
before positional interpretation and everything after the third non-empty
line is ignored — and, with the label fallback the plugin actually passes
(`getDefaultLabel`, always trimmed), the returned label never carries
leading or trailing whitespace. -/
theorem parseCountdownSource_locality :
    (∀ (source fb fc : String),
        parseCountdownSource (joinLines ((nonEmptyLines source).take 3)) fb fc =
          parseCountdownSource source fb fc) ∧
    (∀ (source settingsLabel fc : String) (lang : Lang),
        jsTrim (parseCountdownSource source (getDefaultLabel settingsLabel lang) fc).label =
          (parseCountdownSource source (getDefaultLabel settingsLabel lang) fc).label) := by
  constructor
  · intro source fb fc
    unfold parseCountdownSource
    rcases hl : (nonEmptyLines source).take 3 with _ | ⟨l0, rest⟩
    · have hsrc : nonEmptyLines source = [] := by
        rcases hs : nonEmptyLines source with _ | ⟨a, t⟩
        · rfl
        · rw [hs] at hl
          simp at hl
      rw [hsrc, show nonEmptyLines (joinLines []) = [] from by decide]
    · have hmemall : ∀ l ∈ l0 :: rest, l ∈ nonEmptyLines source := by
        intro l hlmem
        have : l ∈ (nonEmptyLines source).take 3 := by
          rw [hl]
          exact hlmem
        exact List.mem_of_mem_take this
      rw [nonEmptyLines_joinLines (by simp)
        (fun l hlm => nonEmptyLines_mem (hmemall l hlm))]
      rw [← hl, parseLines_take3]
  · intro source settingsLabel fc lang
    unfold parseCountdownSource
    rcases hs : nonEmptyLines source with _ | ⟨l0, rest⟩
    · dsimp only [parseLinesModel]
      exact getDefaultLabel_trimmed settingsLabel lang
    · dsimp only [parseLinesModel]
      generalize jsOrString (rest.get? 0) (getDefaultLabel settingsLabel lang) = x
      unfold jsTrim
      rw [show (⟨trimList x.data⟩ : String).data = trimList x.data from rfl, trimList_idem]

/-! ### The serialize/parse round trip (claim C1) -/

/-- A countdown record as held by the plugin: target instant, label,
colour. -/
structure CountdownRecord where
  target : DateParts
  label : String
  color : String
deriving DecidableEq

/-- A record the plugin can actually hold and serialize: the target is a
valid UTC instant, the label is non-empty, trimmed (labels always pass
through `.trim()` before being stored) and single-line, and the colour is
`normaliseColor`-normalized. -/
def ValidRecord (r : CountdownRecord) : Prop :=
  ValidDateParts r.target ∧ r.label ≠ "" ∧ jsTrim r.label = r.label ∧
    '\n' ∉ r.label.data ∧ normaliseColor (some r.color) = some r.color

instance : DecidablePred ValidRecord := fun r => by
  unfold ValidRecord
  infer_instance

/-- The body a serialized block carries between its fences: the lines of
`serializeCountdownLines` without the opening and closing fence, joined by
newlines (the form the host hands back to the block renderer). -/
def serializedBody (r : CountdownRecord) : String :=
  joinLines (((serializeCountdownLines (toISOString r.target) r.label r.color).drop 1).dropLast)

/-- Claim C1: for every valid record, parsing the body lines produced by
serializing it yields exactly the same target instant (to the millisecond,
hence to second precision), the same label and the same normalized colour,
whatever fallback label and colour are in effect. -/
theorem serialize_parse_roundtrip (r : CountdownRecord) (fb fc : String)
    (h : ValidRecord r) :
    parseCountdownSource (serializedBody r) fb fc =
      ⟨some r.target, r.label, r.color⟩ := by
  obtain ⟨hv, hlne, hltrim, hlnl, hc⟩ := h
  obtain ⟨hcne, hcchars⟩ := normaliseColor_fixed hc
  have hiso := isoChars_no_ws_nl hv
  have hisoLine : jsTrim (toISOString r.target) = toISOString r.target ∧
      toISOString r.target ≠ "" ∧ '\n' ∉ (toISOString r.target).data ∧
      (toISOString r.target).data.getLast? ≠ some '\r' := by
    refine ⟨jsTrim_eq_self_of_no_ws (fun c hcm => (hiso c hcm).1), ?_, ?_, ?_⟩
    · intro he
      exact isoChars_ne_nil (by simpa using congrArg String.data he)
    · intro hm
      exact (hiso _ hm).2 rfl
    · intro hlast
      have := (hiso _ (mem_of_getLast? hlast)).1
      simp [jsWs] at this
  have hlabelLine : jsTrim r.label = r.label ∧ r.label ≠ "" ∧ '\n' ∉ r.label.data ∧
      r.label.data.getLast? ≠ some '\r' := by
    refine ⟨hltrim, hlne, hlnl, ?_⟩
    intro hlast
    have hdata : trimList r.label.data = r.label.data := by
      have := congrArg String.data hltrim
      simpa [jsTrim] using this
    have hw := trimList_getLast_false (hdata.symm ▸ hlast)
    simp [jsWs] at hw
  have hcolorLine : jsTrim r.color = r.color ∧ r.color ≠ "" ∧ '\n' ∉ r.color.data ∧
      r.color.data.getLast? ≠ some '\r' := by
    refine ⟨jsTrim_eq_self_of_no_ws (fun c hcm => (hcchars c hcm).1), hcne, ?_, ?_⟩
    · intro hm
      exact (hcchars _ hm).2 rfl
    · intro hlast
      have := (hcchars _ (mem_of_getLast? hlast)).1
      simp [jsWs] at this
  have hlines : ∀ l ∈ ([toISOString r.target, r.label, r.color] : List String),
      jsTrim l = l ∧ l ≠ "" ∧ '\n' ∉ l.data ∧ l.data.getLast? ≠ some '\r' := by
    intro l hl
    simp only [List.mem_cons, List.not_mem_nil, or_false] at hl
    rcases hl with rfl | rfl | rfl
    · exact hisoLine
    · exact hlabelLine
    · exact hcolorLine
  unfold serializedBody parseCountdownSource
  rw [show ((serializeCountdownLines (toISOString r.target) r.label r.color).drop 1).dropLast
      = [toISOString r.target, r.label, r.color] from rfl]
  rw [nonEmptyLines_joinLines (by simp) hlines]
  dsimp only [parseLinesModel, List.get?]
  rw [parseTargetDate_toISOString hv]
  rw [show jsOrString (some r.label) fb = r.label from by
    unfold jsOrString
    dsimp only []
    rw [if_neg hlne]]
  rw [hltrim, hc]
  rfl

/-- Claim C1, witness: the spec's own example record round-trips through
serialize-then-parse. -/
theorem serialize_parse_roundtrip_witness :
    ValidRecord ⟨⟨2030, 1, 1, 0, 0, 0, 0, some 0⟩, "Launch", "#2E90FA"⟩ ∧
      parseCountdownSource
        (serializedBody ⟨⟨2030, 1, 1, 0, 0, 0, 0, some 0⟩, "Launch", "#2E90FA"⟩)
        "fb" "#F79009" =
        ⟨some ⟨2030, 1, 1, 0, 0, 0, 0, some 0⟩, "Launch", "#2E90FA"⟩ :=
  ⟨by decide,
    serialize_parse_roundtrip ⟨⟨2030, 1, 1, 0, 0, 0, 0, some 0⟩, "Launch", "#2E90FA"⟩
      "fb" "#F79009" (by decide)⟩
